import Mathlib

/-!
# Verification of the growFortress Q16.16 fixed-point math kernel

Shallow embedding of `src/packages/sim-core/wasm/fixed-math/src/lib.rs`:
the three exported operations `mul`, `div`, `sqrt` on `i32` values in
Q16.16 fixed-point format, all of which widen to `i64` internally and
narrow back to `i32` at the end.

Machine integers are embedded as `Int` (for the signed 32/64-bit values)
and `Nat` (for the square-root Newton loop, whose variables are provably
nonnegative and below `2^63`, so `i64` arithmetic on them coincides with
arithmetic on `ℕ`; see `sqrtState_invariant`).  Two's-complement
narrowing is explicit (`toI32`); Rust's arithmetic right shift on `i64`
is floor division by a power of two (`asr`); Rust's signed `/` on `i64`
truncates toward zero, which is `Int.tdiv`.
-/

namespace FixedMath

/-- `i32::MIN` as an integer. -/
def I32_MIN : Int := -(2 ^ 31)

/-- `i32::MAX` as an integer. -/
def I32_MAX : Int := 2 ^ 31 - 1

/-- Rust `as i32` narrowing of a wider signed value: keep the low 32 bits
and reinterpret them as a signed 32-bit value (two's complement wrap). -/
def toI32 (n : Int) : Int := (n + 2 ^ 31) % 2 ^ 32 - 2 ^ 31

/-- Rust `>> k` (arithmetic shift right) on a signed 64-bit value:
floor division by `2 ^ k`. -/
def asr (n : Int) (k : Nat) : Int := Int.fdiv n (2 ^ k)

/-- `pub fn mul(a: i32, b: i32) -> i32`: widen both operands to `i64`,
take the exact 64-bit product, shift right by 16, narrow to `i32`.
The `i64` product of two `i32` values is exact (no wrap), so it is the
integer product. -/
def mul (a b : Int) : Int := toI32 (asr (a * b) 16)

/-- `pub fn div(a: i32, b: i32) -> i32`: on a zero divisor return the
saturated sentinel; otherwise widen to `i64`, shift the dividend left by
16 bits (exact in `i64` for an `i32` input, hence `* 2 ^ 16`), divide with
Rust's truncating (toward zero) signed division, narrow to `i32`. -/
def div (a b : Int) : Int :=
  if b = 0 then (if 0 ≤ a then I32_MAX else I32_MIN)
  else toI32 (Int.tdiv (a * 2 ^ 16) b)

/-- The Newton `while y < x` loop of `sqrt`, on the state `(x, y)`:
`while y < x { x = y; y = (x + fp64 / x) >> 1; }`, returning `x` at exit.
All quantities involved are nonnegative and small (see
`sqrtState_invariant`), so `i64` division and shift are `ℕ` division. -/
def sqrtLoop (fp x y : Nat) : Nat :=
  if y < x then sqrtLoop fp y ((y + fp / y) / 2) else x
termination_by x

/-- `pub fn sqrt(fp: i32) -> i32`: `0` for non-positive input; otherwise
run the Newton loop from `x = fp64`, `y = (x + 1) >> 1` and return the
exit value of `x`, shifted left by 8 bits in `i64` and narrowed to `i32`. -/
def sqrt (fp : Int) : Int :=
  if fp ≤ 0 then 0
  else toI32 ((sqrtLoop fp.toNat fp.toNat ((fp.toNat + 1) / 2) : Int) * 2 ^ 8)

/-- One iteration of the body of the Newton `while` loop of `sqrt`,
as a transformation of the state `(x, y)`. -/
def sqrtStep (fp : Nat) (s : Nat × Nat) : Nat × Nat :=
  (s.2, (s.2 + fp / s.2) / 2)

/-- The state of the Newton loop of `sqrt` after `n` iterations of the
body, starting from the initial state `x = fp`, `y = (fp + 1) >> 1`. -/
def sqrtState (fp n : Nat) : Nat × Nat :=
  (sqrtStep fp)^[n] (fp, (fp + 1) / 2)

/-! ## Helper lemmas: narrowing and division characterizations -/

theorem toI32_eq_self {n : Int} (h1 : -(2 ^ 31) ≤ n) (h2 : n < 2 ^ 31) :
    toI32 n = n := by
  unfold toI32; omega

theorem toI32_range (n : Int) : -(2 ^ 31) ≤ toI32 n ∧ toI32 n ≤ 2 ^ 31 - 1 := by
  unfold toI32; omega

theorem toI32_emod (n : Int) : toI32 n % 2 ^ 32 = n % 2 ^ 32 := by
  unfold toI32; omega

/-- The arithmetic right shift by 16 bits is the floor of division
by `2 ^ 16`: characterizing inequalities. -/
theorem asr16_bounds (n : Int) :
    2 ^ 16 * asr n 16 ≤ n ∧ n < 2 ^ 16 * (asr n 16 + 1) := by
  unfold asr
  rw [Int.fdiv_eq_ediv _ (by norm_num)]
  have h1 := Int.ediv_add_emod n (2 ^ 16)
  have h2 := @Int.emod_nonneg n (2 ^ 16) (by norm_num)
  have h3 := @Int.emod_lt_of_pos n (2 ^ 16) (by norm_num)
  omega

theorem tmod_neg_left (a b : Int) : Int.tmod (-a) b = -Int.tmod a b := by
  rw [Int.tmod_def, Int.tmod_def, Int.neg_tdiv]
  ring

theorem abs_tmod_lt_of_pos (a : Int) {b : Int} (hbpos : 0 < b) :
    |Int.tmod a b| < |b| := by
  rcases le_or_lt 0 a with ha | ha
  · rw [abs_of_nonneg (Int.tmod_nonneg _ ha), abs_of_pos hbpos]
    exact Int.tmod_lt_of_pos a hbpos
  · have h1 : Int.tmod a b = -Int.tmod (-a) b := by
      rw [tmod_neg_left, neg_neg]
    have h2 : 0 ≤ Int.tmod (-a) b := Int.tmod_nonneg _ (by omega)
    have h3 : Int.tmod (-a) b < b := Int.tmod_lt_of_pos (-a) hbpos
    rw [h1, abs_neg, abs_of_nonneg h2, abs_of_pos hbpos]
    exact h3

/-- The remainder of truncating division is smaller than the divisor in
absolute value. -/
theorem abs_tmod_lt (a : Int) {b : Int} (hb : b ≠ 0) :
    |Int.tmod a b| < |b| := by
  rcases hb.lt_or_lt with hb0 | hb0
  · have h1 : Int.tmod a b = Int.tmod a (-(-b)) := by rw [neg_neg]
    rw [h1, Int.tmod_neg, ← abs_neg b]
    exact abs_tmod_lt_of_pos a (by omega)
  · exact abs_tmod_lt_of_pos a hb0

/-- Truncating division rounds toward zero: the rounded multiple does not
exceed the dividend in absolute value. -/
theorem abs_mul_tdiv_le (a b : Int) : |b * Int.tdiv a b| ≤ |a| := by
  rw [Int.abs_eq_natAbs, Int.abs_eq_natAbs]
  have h : (b * Int.tdiv a b).natAbs = b.natAbs * (a.natAbs / b.natAbs) := by
    rw [Int.natAbs_mul, Int.natAbs_tdiv]; rfl
  rw [h]
  have h2 : b.natAbs * (a.natAbs / b.natAbs) ≤ a.natAbs := by
    rw [Nat.mul_comm]
    exact Nat.div_mul_le_self _ _
  exact_mod_cast h2

theorem tmod_sub_eq (a b : Int) : a - b * Int.tdiv a b = Int.tmod a b := by
  rw [Int.tmod_def]

/-! ## Newton iteration lemmas -/

/-- One Newton update from any positive `x` lands at or above the integer
square root: `Nat.sqrt n ≤ (x + n / x) / 2`. -/
theorem newton_y_ge_sqrt (n : Nat) {x : Nat} (hx : 0 < x) :
    Nat.sqrt n ≤ (x + n / x) / 2 := by
  have hsn : Nat.sqrt n * Nat.sqrt n ≤ n := Nat.sqrt_le n
  have key : 2 * Nat.sqrt n ≤ x + n / x := by
    rcases le_or_lt (2 * Nat.sqrt n) x with h | h
    · exact le_trans h (Nat.le_add_right x (n / x))
    · have hle : (2 * Nat.sqrt n - x) * x ≤ Nat.sqrt n * Nat.sqrt n := by
        zify [h.le]
        nlinarith [sq_nonneg ((Nat.sqrt n : Int) - x)]
      have := (Nat.le_div_iff_mul_le hx).mpr (le_trans hle hsn)
      omega
  exact (Nat.le_div_iff_mul_le (by norm_num)).mpr (by omega)

/-- When the loop guard fails (the next iterate is not below `x`), `x`
already squares below `n`. -/
theorem newton_exit {n x : Nat} (hx : 0 < x) (h : x ≤ (x + n / x) / 2) :
    x * x ≤ n := by
  have h1 : x * 2 ≤ x + n / x := (Nat.le_div_iff_mul_le (by norm_num)).mp h
  have h2 : x ≤ n / x := by omega
  exact (Nat.le_div_iff_mul_le hx).mp h2

/-- The Newton loop, entered at any positive `x` at or above the integer
square root with `y` the Newton update of `x`, exits with exactly
`Nat.sqrt n`. -/
theorem sqrtLoop_eq_sqrt (n : Nat) (hn : 0 < n) :
    ∀ x, 0 < x → Nat.sqrt n ≤ x →
      sqrtLoop n x ((x + n / x) / 2) = Nat.sqrt n := by
  intro x
  induction x using Nat.strong_induction_on with
  | _ x ih =>
    intro hx hsx
    rw [sqrtLoop]
    split_ifs with h
    · have hy : 0 < (x + n / x) / 2 :=
        lt_of_lt_of_le (Nat.sqrt_pos.mpr hn) (newton_y_ge_sqrt n hx)
      exact ih _ h hy (newton_y_ge_sqrt n hx)
    · have hxx : x * x ≤ n := newton_exit hx (by omega)
      exact le_antisymm (Nat.le_sqrt.mpr hxx) hsx

/-- Integer square roots of values up to `i32::MAX` fit under `46340`. -/
theorem sqrt_le_46340 {n : Nat} (h : n ≤ 2147483647) : Nat.sqrt n ≤ 46340 := by
  by_contra hc
  push_neg at hc
  have h1 : 46341 * 46341 ≤ Nat.sqrt n * Nat.sqrt n :=
    Nat.mul_le_mul (by omega) (by omega)
  have h2 := Nat.sqrt_le n
  omega

/-- For positive in-range input, `sqrt` returns the integer square root of
the raw value, left-shifted by 8 bits (the shift and narrowing are exact). -/
theorem sqrt_pos_eq {fp : Int} (h1 : 0 < fp) (h2 : fp ≤ 2 ^ 31 - 1) :
    sqrt fp = (Nat.sqrt fp.toNat : Int) * 2 ^ 8 := by
  have hn : 0 < fp.toNat := by omega
  have hn2 : fp.toNat ≤ 2147483647 := by omega
  unfold sqrt
  rw [if_neg (by omega)]
  have hinit : (fp.toNat + 1) / 2 = (fp.toNat + fp.toNat / fp.toNat) / 2 := by
    rw [Nat.div_self hn]
  rw [hinit, sqrtLoop_eq_sqrt fp.toNat hn fp.toNat hn (Nat.sqrt_le_self _)]
  have hb : Nat.sqrt fp.toNat ≤ 46340 := sqrt_le_46340 hn2
  have hb' : (Nat.sqrt fp.toNat : Int) ≤ 46340 := by exact_mod_cast hb
  have hb0 : (0 : Int) ≤ (Nat.sqrt fp.toNat : Int) := by positivity
  exact toI32_eq_self (by omega) (by omega)

/-- `sqrt` on non-positive input returns `0` (shared helper). -/
theorem sqrt_of_nonpos {fp : Int} (h : fp ≤ 0) : sqrt fp = 0 := by
  unfold sqrt
  rw [if_pos h]

/-! ## Loop state invariant and termination -/

/-- Invariant of the Newton loop state: starting from `(fp, (fp + 1) / 2)`
with `fp ≥ 1`, both components stay in `[1, fp]` after any number of
iterations of the loop body. -/
theorem sqrtState_invariant (fp : Nat) (hfp : 1 ≤ fp) (n : Nat) :
    1 ≤ (sqrtState fp n).1 ∧ (sqrtState fp n).1 ≤ fp ∧
    1 ≤ (sqrtState fp n).2 ∧ (sqrtState fp n).2 ≤ fp := by
  induction n with
  | zero =>
    unfold sqrtState
    simp only [Function.iterate_zero, id]
    omega
  | succ n ih =>
    have hstep : sqrtState fp (n + 1) = sqrtStep fp (sqrtState fp n) := by
      unfold sqrtState
      rw [Function.iterate_succ_apply']
    obtain ⟨h1, h2, h3, h4⟩ := ih
    rw [hstep]
    unfold sqrtStep
    dsimp only
    have hdy : fp / (sqrtState fp n).2 ≤ fp := Nat.div_le_self _ _
    have hd0 : 0 ≤ fp / (sqrtState fp n).2 := Nat.zero_le _
    rcases eq_or_lt_of_le h3 with hy1 | hy2
    · rw [← hy1, Nat.div_one]
      omega
    · omega

/-- While the loop guard `y < x` holds, the `x` component strictly
decreases, so from any state the guard fails within `s.1` iterations. -/
theorem sqrtStep_exit (fp : Nat) :
    ∀ k (s : Nat × Nat), s.1 ≤ k →
      ∃ n, n ≤ k ∧
        ¬ (((sqrtStep fp)^[n] s).2 < ((sqrtStep fp)^[n] s).1) := by
  intro k
  induction k with
  | zero =>
    intro s hs
    refine ⟨0, le_refl 0, ?_⟩
    simp only [Function.iterate_zero, id]
    omega
  | succ k ih =>
    intro s hs
    by_cases hg : s.2 < s.1
    · obtain ⟨n, hn, hexit⟩ := ih (sqrtStep fp s) (by unfold sqrtStep; dsimp only; omega)
      refine ⟨n + 1, by omega, ?_⟩
      rwa [Function.iterate_succ_apply]
    · exact ⟨0, Nat.zero_le _, by simpa using hg⟩

/-! ## 64-bit intermediate bounds -/

/-- The exact product of two in-range `i32` values is bounded by `2 ^ 62`
in absolute value, hence fits in `i64`. -/
theorem i32_mul_bounds {a b : Int} (ha1 : -(2 ^ 31) ≤ a) (ha2 : a ≤ 2 ^ 31 - 1)
    (hb1 : -(2 ^ 31) ≤ b) (hb2 : b ≤ 2 ^ 31 - 1) :
    -(2 ^ 62) ≤ a * b ∧ a * b ≤ 2 ^ 62 := by
  constructor
  · nlinarith [mul_nonneg (by linarith : (0 : Int) ≤ a + 2 ^ 31)
        (by linarith : (0 : Int) ≤ b + 2 ^ 31),
      mul_nonneg (by linarith : (0 : Int) ≤ 2 ^ 31 - 1 - a)
        (by linarith : (0 : Int) ≤ 2 ^ 31 - 1 - b)]
  · nlinarith [mul_nonneg (by linarith : (0 : Int) ≤ a + 2 ^ 31)
        (by linarith : (0 : Int) ≤ 2 ^ 31 - 1 - b),
      mul_nonneg (by linarith : (0 : Int) ≤ 2 ^ 31 - 1 - a)
        (by linarith : (0 : Int) ≤ b + 2 ^ 31)]

/-! ## Claim theorems -/

/-- C1: for every i32 input `fp > 0`, `sqrt fp` equals the integer square
root of the raw value — the largest integer whose square does not exceed
`fp` — left-shifted by 8 bits and narrowed to i32; in particular
`sqrt 262144 = 131072`. -/
theorem sqrt_newton_correct (fp : Int) (h1 : 0 < fp) (h2 : fp ≤ 2 ^ 31 - 1) :
    Nat.sqrt fp.toNat * Nat.sqrt fp.toNat ≤ fp.toNat ∧
    fp.toNat < (Nat.sqrt fp.toNat + 1) * (Nat.sqrt fp.toNat + 1) ∧
    sqrt fp = toI32 ((Nat.sqrt fp.toNat : Int) * 2 ^ 8) ∧
    sqrt 262144 = 131072 := by
  refine ⟨Nat.sqrt_le _, ?_, ?_, ?_⟩
  · simpa [Nat.succ_eq_add_one] using Nat.lt_succ_sqrt fp.toNat
  · rw [sqrt_pos_eq h1 h2]
    have hb : Nat.sqrt fp.toNat ≤ 46340 := sqrt_le_46340 (by omega)
    have hb' : (Nat.sqrt fp.toNat : Int) ≤ 46340 := by exact_mod_cast hb
    have hb0 : (0 : Int) ≤ (Nat.sqrt fp.toNat : Int) := by positivity
    exact (toI32_eq_self (by omega) (by omega)).symm
  · rw [@sqrt_pos_eq 262144 (by norm_num) (by norm_num)]
    have h512 : (262144 : Int).toNat = 512 * 512 := rfl
    rw [h512, Nat.sqrt_eq]
    norm_num

/-- C1 witness at `fp = 262144`. -/
theorem sqrt_newton_correct_w :
    (0 < (262144 : Int) ∧ (262144 : Int) ≤ 2 ^ 31 - 1) ∧
    sqrt 262144 = 131072 :=
  ⟨⟨by norm_num, by norm_num⟩,
    (sqrt_newton_correct 262144 (by norm_num) (by norm_num)).2.2.2⟩

/-- C2: `div a 0` returns `i32::MAX = 2147483647` when `a ≥ 0` and
`i32::MIN = -2147483648` when `a < 0`; no error is signalled. -/
theorem div_by_zero_sentinel (a : Int) (h1 : -(2 ^ 31) ≤ a) (h2 : a ≤ 2 ^ 31 - 1) :
    (0 ≤ a → div a 0 = 2147483647) ∧ (a < 0 → div a 0 = -2147483648) := by
  unfold div I32_MAX I32_MIN
  constructor
  · intro ha
    rw [if_pos rfl, if_pos ha]
    norm_num
  · intro ha
    rw [if_pos rfl, if_neg (by omega)]
    norm_num

/-- C2 witness at `a = -7`. -/
theorem div_by_zero_sentinel_w :
    (-(2 ^ 31) ≤ (-7 : Int) ∧ (-7 : Int) ≤ 2 ^ 31 - 1 ∧ (-7 : Int) < 0) ∧
    div (-7) 0 = -2147483648 :=
  ⟨⟨by norm_num, by norm_num, by norm_num⟩,
    (div_by_zero_sentinel (-7) (by norm_num) (by norm_num)).2 (by norm_num)⟩

/-- C5: `sqrt fp = 0` for every i32 input `fp ≤ 0`, including
`fp = i32::MIN`, with no fault raised. -/
theorem sqrt_nonpos_eq_zero (fp : Int) (h1 : -(2 ^ 31) ≤ fp) (h2 : fp ≤ 0) :
    sqrt fp = 0 :=
  sqrt_of_nonpos h2

/-- C5 witness at `fp = i32::MIN = -2147483648`. -/
theorem sqrt_nonpos_eq_zero_w :
    (-(2 ^ 31) ≤ (-2147483648 : Int) ∧ (-2147483648 : Int) ≤ 0) ∧
    sqrt (-2147483648) = 0 :=
  ⟨⟨by norm_num, by norm_num⟩,
    sqrt_nonpos_eq_zero (-2147483648) (by norm_num) (by norm_num)⟩

/-- C6: for every i32 input `fp > 0`, the Newton `while y < x` loop of
`sqrt` reaches a state falsifying its guard after finitely many (at most
`fp`) iterations of the body: the iteration terminates with no cap. -/
theorem sqrt_loop_terminates (fp : Int) (h1 : 0 < fp) (h2 : fp ≤ 2 ^ 31 - 1) :
    ∃ n, n ≤ fp.toNat ∧
      ¬ ((sqrtState fp.toNat n).2 < (sqrtState fp.toNat n).1) := by
  obtain ⟨n, hn, hexit⟩ :=
    sqrtStep_exit fp.toNat fp.toNat (fp.toNat, (fp.toNat + 1) / 2) (le_refl _)
  exact ⟨n, hn, hexit⟩

/-- C6 witness at `fp = 100`. -/
theorem sqrt_loop_terminates_w :
    (0 < (100 : Int) ∧ (100 : Int) ≤ 2 ^ 31 - 1) ∧
    ∃ n, n ≤ (100 : Int).toNat ∧
      ¬ ((sqrtState (100 : Int).toNat n).2 < (sqrtState (100 : Int).toNat n).1) :=
  ⟨⟨by norm_num, by norm_num⟩,
    sqrt_loop_terminates 100 (by norm_num) (by norm_num)⟩

/-- C10: for every i32 input, the result of `sqrt` lies in
`[0, 11863040]` (`= 46340 * 2 ^ 8`): the exit value of `x` never exceeds
`isqrt(2^31 - 1) = 46340`, so the final shift and narrowing are exact. -/
theorem sqrt_result_range (fp : Int) (h1 : -(2 ^ 31) ≤ fp) (h2 : fp ≤ 2 ^ 31 - 1) :
    0 ≤ sqrt fp ∧ sqrt fp ≤ 11863040 := by
  rcases le_or_lt fp 0 with h | h
  · rw [sqrt_of_nonpos h]
    norm_num
  · rw [sqrt_pos_eq h h2]
    have hb : Nat.sqrt fp.toNat ≤ 46340 := sqrt_le_46340 (by omega)
    have hb' : (Nat.sqrt fp.toNat : Int) ≤ 46340 := by exact_mod_cast hb
    have hb0 : (0 : Int) ≤ (Nat.sqrt fp.toNat : Int) := by positivity
    omega

/-- C10 witness at `fp = i32::MAX = 2147483647`. -/
theorem sqrt_result_range_w :
    (-(2 ^ 31) ≤ (2147483647 : Int) ∧ (2147483647 : Int) ≤ 2 ^ 31 - 1) ∧
    0 ≤ sqrt 2147483647 ∧ sqrt 2147483647 ≤ 11863040 :=
  ⟨⟨by norm_num, by norm_num⟩,
    sqrt_result_range 2147483647 (by norm_num) (by norm_num)⟩

/-- C3: `mul a b` is the exact 64-bit product (which fits in `i64`),
arithmetic-shifted right by 16 bits (floor: the characterizing
inequalities), then narrowed to 32 bits by two's-complement wrap: the
result is in i32 range and congruent to the shifted product mod `2^32`. -/
theorem mul_widen_shift_narrow (a b : Int)
    (ha1 : -(2 ^ 31) ≤ a) (ha2 : a ≤ 2 ^ 31 - 1)
    (hb1 : -(2 ^ 31) ≤ b) (hb2 : b ≤ 2 ^ 31 - 1) :
    (-(2 ^ 62) ≤ a * b ∧ a * b ≤ 2 ^ 62) ∧
    2 ^ 16 * asr (a * b) 16 ≤ a * b ∧
    a * b < 2 ^ 16 * (asr (a * b) 16 + 1) ∧
    -(2 ^ 31) ≤ mul a b ∧ mul a b ≤ 2 ^ 31 - 1 ∧
    mul a b % 2 ^ 32 = asr (a * b) 16 % 2 ^ 32 := by
  obtain ⟨hs1, hs2⟩ := asr16_bounds (a * b)
  exact ⟨i32_mul_bounds ha1 ha2 hb1 hb2, hs1, hs2,
    (toI32_range _).1, (toI32_range _).2, toI32_emod _⟩

/-- C3 witness at `a = 100000`, `b = -300000`. -/
theorem mul_widen_shift_narrow_w :
    ((-(2 ^ 31) : Int) ≤ 100000 ∧ (100000 : Int) ≤ 2 ^ 31 - 1 ∧
      (-(2 ^ 31) : Int) ≤ -300000 ∧ (-300000 : Int) ≤ 2 ^ 31 - 1) ∧
    mul 100000 (-300000) % 2 ^ 32 =
      asr ((100000 : Int) * (-300000)) 16 % 2 ^ 32 :=
  ⟨⟨by norm_num, by norm_num, by norm_num, by norm_num⟩,
    (mul_widen_shift_narrow 100000 (-300000) (by norm_num) (by norm_num)
      (by norm_num) (by norm_num)).2.2.2.2.2⟩

/-- C4: for `b ≠ 0`, `div a b` shifts the dividend left by 16 bits in
64-bit space, divides by `b` truncating toward zero (the rounded multiple
never exceeds the shifted dividend in absolute value and the remainder is
smaller than the divisor in absolute value), then narrows to 32 bits by
two's-complement wrap. -/
theorem div_widen_shift_narrow (a b : Int)
    (ha1 : -(2 ^ 31) ≤ a) (ha2 : a ≤ 2 ^ 31 - 1)
    (hb1 : -(2 ^ 31) ≤ b) (hb2 : b ≤ 2 ^ 31 - 1) (hb : b ≠ 0) :
    div a b = toI32 (Int.tdiv (a * 2 ^ 16) b) ∧
    |b * Int.tdiv (a * 2 ^ 16) b| ≤ |a * 2 ^ 16| ∧
    |a * 2 ^ 16 - b * Int.tdiv (a * 2 ^ 16) b| < |b| ∧
    -(2 ^ 31) ≤ div a b ∧ div a b ≤ 2 ^ 31 - 1 ∧
    div a b % 2 ^ 32 = Int.tdiv (a * 2 ^ 16) b % 2 ^ 32 := by
  have hdef : div a b = toI32 (Int.tdiv (a * 2 ^ 16) b) := by
    unfold div
    rw [if_neg hb]
  refine ⟨hdef, abs_mul_tdiv_le _ _, ?_, ?_, ?_, ?_⟩
  · rw [tmod_sub_eq]
    exact abs_tmod_lt _ hb
  · rw [hdef]
    exact (toI32_range _).1
  · rw [hdef]
    exact (toI32_range _).2
  · rw [hdef]
    exact toI32_emod _

/-- C4 witness at `a = -5`, `b = 3`. -/
theorem div_widen_shift_narrow_w :
    ((-(2 ^ 31) : Int) ≤ -5 ∧ (-5 : Int) ≤ 2 ^ 31 - 1 ∧
      (-(2 ^ 31) : Int) ≤ 3 ∧ (3 : Int) ≤ 2 ^ 31 - 1 ∧ (3 : Int) ≠ 0) ∧
    div (-5) 3 = toI32 (Int.tdiv ((-5 : Int) * 2 ^ 16) 3) :=
  ⟨⟨by norm_num, by norm_num, by norm_num, by norm_num, by norm_num⟩,
    (div_widen_shift_narrow (-5) 3 (by norm_num) (by norm_num) (by norm_num)
      (by norm_num) (by norm_num)).1⟩

/-- C7 counterexample: the claimed concrete case `div 131072 65536 = 65536`
is false — the code returns `131072` (2.0 / 1.0 = 2.0, not 1.0). -/
theorem div_identity_concrete_cex : ¬ (div 131072 65536 = 65536) := by decide

/-- C7 (amended): multiplication and division by `FP_ONE = 65536` return
the argument unchanged for every i32 `x`; concretely
`mul 65536 65536 = 65536`, `div 131072 65536 = 131072` (2.0 / 1.0 = 2.0),
and `mul 98304 65536 = 98304`. -/
theorem mul_div_identity (x : Int) (h1 : -(2 ^ 31) ≤ x) (h2 : x ≤ 2 ^ 31 - 1) :
    mul x 65536 = x ∧ div x 65536 = x ∧
    mul 65536 65536 = 65536 ∧ div 131072 65536 = 131072 ∧
    mul 98304 65536 = 98304 := by
  have h3 : (2 : Int) ^ 16 = 65536 := by norm_num
  refine ⟨?_, ?_, by decide, by decide, by decide⟩
  · unfold mul asr
    rw [h3, Int.mul_fdiv_cancel x (by norm_num)]
    exact toI32_eq_self h1 (by omega)
  · unfold div
    rw [if_neg (by norm_num), h3, Int.mul_tdiv_cancel x (by norm_num)]
    exact toI32_eq_self h1 (by omega)

/-- C7 witness at `x = 7`. -/
theorem mul_div_identity_w :
    ((-(2 ^ 31) : Int) ≤ 7 ∧ (7 : Int) ≤ 2 ^ 31 - 1) ∧
    mul 7 65536 = 7 ∧ div 7 65536 = 7 :=
  ⟨⟨by norm_num, by norm_num⟩,
    (mul_div_identity 7 (by norm_num) (by norm_num)).1,
    (mul_div_identity 7 (by norm_num) (by norm_num)).2.1⟩

/-- C8: none of the operations can panic: the 64-bit product and the
shifted dividend stay strictly inside the `i64` range (and the dividend is
never `i64::MIN`, so `i64::MIN / -1` is unreachable), and in the `sqrt`
loop both state components stay in `[1, fp]` — the divisor `x` is never
zero, and each intermediate sum `x + fp / x` stays below `2 ^ 32`. -/
theorem ops_never_panic (a b fp : Int)
    (ha1 : -(2 ^ 31) ≤ a) (ha2 : a ≤ 2 ^ 31 - 1)
    (hb1 : -(2 ^ 31) ≤ b) (hb2 : b ≤ 2 ^ 31 - 1)
    (hf1 : 0 < fp) (hf2 : fp ≤ 2 ^ 31 - 1) :
    (-(2 ^ 63) ≤ a * b ∧ a * b ≤ 2 ^ 63 - 1) ∧
    (-(2 ^ 63) ≤ a * 2 ^ 16 ∧ a * 2 ^ 16 ≤ 2 ^ 63 - 1 ∧ a * 2 ^ 16 ≠ -(2 ^ 63)) ∧
    (∀ n, 1 ≤ (sqrtState fp.toNat n).1 ∧ (sqrtState fp.toNat n).1 ≤ fp.toNat ∧
      1 ≤ (sqrtState fp.toNat n).2 ∧ (sqrtState fp.toNat n).2 ≤ fp.toNat ∧
      (sqrtState fp.toNat n).2 + fp.toNat / (sqrtState fp.toNat n).2 < 2 ^ 32 ∧
      (sqrtState fp.toNat n).1 * 2 ^ 8 < 2 ^ 63) := by
  obtain ⟨hp1, hp2⟩ := i32_mul_bounds ha1 ha2 hb1 hb2
  refine ⟨⟨by omega, by omega⟩, ⟨by omega, by omega, by omega⟩, ?_⟩
  intro n
  obtain ⟨h1, h2, h3, h4⟩ := sqrtState_invariant fp.toNat (by omega) n
  have hdy : fp.toNat / (sqrtState fp.toNat n).2 ≤ fp.toNat := Nat.div_le_self _ _
  have hfp31 : fp.toNat ≤ 2147483647 := by omega
  exact ⟨h1, h2, h3, h4, by omega, by omega⟩

/-- C8 witness at `a = -2147483648`, `b = 2147483647`, `fp = 10`. -/
theorem ops_never_panic_w :
    ((-(2 ^ 31) : Int) ≤ -2147483648 ∧ (-2147483648 : Int) ≤ 2 ^ 31 - 1 ∧
      (-(2 ^ 31) : Int) ≤ 2147483647 ∧ (2147483647 : Int) ≤ 2 ^ 31 - 1 ∧
      (0 : Int) < 10 ∧ (10 : Int) ≤ 2 ^ 31 - 1) ∧
    (-(2 ^ 63) ≤ (-2147483648 : Int) * 2147483647 ∧
      (-2147483648 : Int) * 2147483647 ≤ 2 ^ 63 - 1) :=
  ⟨⟨by norm_num, by norm_num, by norm_num, by norm_num, by norm_num, by norm_num⟩,
    (ops_never_panic (-2147483648) 2147483647 10 (by norm_num) (by norm_num)
      (by norm_num) (by norm_num) (by norm_num) (by norm_num)).1⟩

/-- C9: whenever the true product of the encoded rationals is
representable in the Q16.16 raw range, the decoded result of `mul`
differs from the true product by at most one unit in the last place,
`1 / 65536`. -/
theorem mul_ulp_bound (a b : Int)
    (ha1 : -(2 ^ 31) ≤ a) (ha2 : a ≤ 2 ^ 31 - 1)
    (hb1 : -(2 ^ 31) ≤ b) (hb2 : b ≤ 2 ^ 31 - 1)
    (hrep1 : -(2 ^ 31) ≤ ((a : ℚ) * b) / 65536)
    (hrep2 : ((a : ℚ) * b) / 65536 ≤ 2 ^ 31 - 1) :
    |(mul a b : ℚ) / 65536 - ((a : ℚ) / 65536) * ((b : ℚ) / 65536)| ≤ 1 / 65536 := by
  obtain ⟨hs1, hs2⟩ := asr16_bounds (a * b)
  have e16 : (2 : Int) ^ 16 = 65536 := by norm_num
  rw [e16] at hs1 hs2
  have h65 : (0 : ℚ) < 65536 := by norm_num
  have hc1 : (65536 : ℚ) * ((asr (a * b) 16 : Int) : ℚ) ≤ (a : ℚ) * b := by
    exact_mod_cast hs1
  have hc2 : (a : ℚ) * b < 65536 * (((asr (a * b) 16 : Int) : ℚ) + 1) := by
    exact_mod_cast hs2
  have hq1 : ((asr (a * b) 16 : Int) : ℚ) ≤ ((a : ℚ) * b) / 65536 := by
    rw [le_div_iff₀ h65]
    linarith
  have hq2 : ((a : ℚ) * b) / 65536 < ((asr (a * b) 16 : Int) : ℚ) + 1 := by
    rw [div_lt_iff₀ h65]
    linarith
  have hqu : (asr (a * b) 16 : Int) ≤ 2 ^ 31 - 1 := by
    have : ((asr (a * b) 16 : Int) : ℚ) ≤ (2 : ℚ) ^ 31 - 1 := le_trans hq1 hrep2
    exact_mod_cast this
  have hql : -(2 ^ 31) ≤ (asr (a * b) 16 : Int) := by
    have h5 : (-(2 ^ 31) : ℚ) < ((asr (a * b) 16 : Int) : ℚ) + 1 :=
      lt_of_le_of_lt hrep1 hq2
    have h6 : (-(2 ^ 31) : Int) < asr (a * b) 16 + 1 := by exact_mod_cast h5
    omega
  have hmul : mul a b = asr (a * b) 16 := by
    unfold mul
    exact toI32_eq_self (by omega) (by omega)
  rw [hmul]
  have he : ((a : ℚ) / 65536) * ((b : ℚ) / 65536) = ((a : ℚ) * b / 65536) / 65536 := by
    ring
  rw [he, ← sub_div, abs_div, abs_of_pos h65]
  have hd : |((asr (a * b) 16 : Int) : ℚ) - ((a : ℚ) * b / 65536)| ≤ 1 := by
    rw [abs_sub_comm, abs_of_nonneg (by linarith)]
    linarith
  rw [div_le_div_iff₀ h65 h65]
  linarith


/-- C9 witness at `a = b = 98304` (1.5 × 1.5 = 2.25). -/
theorem mul_ulp_bound_w :
    ((-(2 ^ 31) : Int) ≤ 98304 ∧ (98304 : Int) ≤ 2 ^ 31 - 1 ∧
      -(2 ^ 31) ≤ (((98304 : Int) : ℚ) * ((98304 : Int) : ℚ)) / 65536 ∧
      (((98304 : Int) : ℚ) * ((98304 : Int) : ℚ)) / 65536 ≤ 2 ^ 31 - 1) ∧
    |(mul 98304 98304 : ℚ) / 65536 -
      (((98304 : Int) : ℚ) / 65536) * (((98304 : Int) : ℚ) / 65536)| ≤ 1 / 65536 :=
  ⟨⟨by norm_num, by norm_num, by norm_num, by norm_num⟩,
    mul_ulp_bound 98304 98304 (by norm_num) (by norm_num) (by norm_num)
      (by norm_num) (by norm_num) (by norm_num)⟩

end FixedMath
